import Mathlib

/-!
Verification of the connections-sort tile-extraction pipeline and tile
operations.  The repository contains three iterations of the same pipeline:
the multi-pass OCR pipeline (namespace MultiPass), the single-pass pipeline
with positional clustering and a raw-text fallback (namespace App, from
src/app.js), and the parameter-tuning script (namespace Tune).  Recognition
itself is an external capability; a pipeline run is therefore modelled as a
pure function of the raw text each recognition pass returned.
-/

namespace ConnectionsSort

/-- Test for an ASCII uppercase Latin letter, the model of the character
class A-Z used by the source regexes. -/
def isUpperAlpha (c : Char) : Bool := 'A' ≤ c && c ≤ 'Z'

/-- JS toUpperCase restricted to the ASCII range handled by the pipeline. -/
def asciiUpper (c : Char) : Char :=
  if 'a' ≤ c && c ≤ 'z' then Char.ofNat (c.toNat - 32) else c

/-- Uppercase every character of a string, the model of text.toUpperCase(). -/
def toUpperStr (s : String) : String := ⟨s.data.map asciiUpper⟩

/-- Maximal runs of consecutive characters satisfying p; the first argument
accumulates the current run in reverse.  This models a global regex match of
one-or-more p-characters, as in text.match of A-Z runs, and string splitting
on runs of non-p characters. -/
def runs (p : Char → Bool) : List Char → List Char → List (List Char)
  | cur, [] => if cur.isEmpty then [] else [cur.reverse]
  | cur, c :: cs =>
      if p c then runs p (c :: cur) cs
      else if cur.isEmpty then runs p [] cs
      else cur.reverse :: runs p [] cs

/-- Model of the regex test for a string made of one or more digits. -/
def isAllDigits (s : String) : Bool :=
  !s.data.isEmpty && s.data.all (fun c => c.isDigit)

namespace MultiPass

/-- Interface vocabulary filtered out by the multi-pass pipeline validator. -/
def uiWords : List String :=
  ["CONNECTIONS", "CONNECTION", "CREATE", "SHUFFLE", "DESELECT", "SUBMIT",
   "TODAY", "ARCHIVE", "PLAY", "NYT", "GAMES", "MENU", "GAME",
   "MISTAKES", "REMAINING", "ONE", "TWO", "THREE", "FOUR", "FIVE",
   "NEXT", "BACK", "SHARE", "RESULTS", "VIEW", "ALL",
   "GROUPS", "GROUP", "CORRECT", "INCORRECT", "GUESS", "GUESSES",
   "SETTINGS", "HELP", "HOW", "THE", "AND", "FOR", "WITH",
   "YOUR", "YOU", "ARE", "WAS", "WERE", "BEEN", "BEING"]

/-- Model of the regex test for a degenerate single-character repeat: one
character followed by one or more copies of itself.  The regex dot does not
match a newline, but candidates never contain one. -/
def isRepeatedChar (s : String) : Bool :=
  match s.data with
  | [] => false
  | c :: rest => !rest.isEmpty && rest.all (fun d => d == c)

/-- Validator of the multi-pass pipeline: length within 3..15, not interface
vocabulary, not all digits, not a single-character repeat, and containing at
least one uppercase letter. -/
def isValidTileWord (text : String) : Bool :=
  if text.length < 3 then false
  else if 15 < text.length then false
  else if uiWords.contains text then false
  else if isAllDigits text then false
  else if isRepeatedChar text then false
  else if !(text.data.any isUpperAlpha) then false
  else true

/-- Candidate extraction from raw pass text: uppercase the text and take the
maximal runs of two or more uppercase letters, in order. -/
def extractWordsFromText (text : String) : List String :=
  ((runs isUpperAlpha [] (toUpperStr text).data).filter
    (fun r => decide (2 ≤ r.length))).map (fun r => String.mk r)

/-- Append a word to the accumulated union unless it is already present. -/
def insertWord (acc : List String) (w : String) : List String :=
  if w ∈ acc then acc else acc ++ [w]

/-- Fold one pass into the union: every validated extracted word of the pass
text is appended unless already found. -/
def addFoundWords (acc : List String) (text : String) : List String :=
  ((extractWordsFromText text).filter isValidTileWord).foldl insertWord acc

/-- The validated candidate union of a run, accumulated over the pass texts
in pass-then-discovery order. -/
def unionWords (passes : List String) : List String :=
  passes.foldl addFoundWords []

/-- Synthetic placeholder label pushed when fewer than 16 tiles were found. -/
def placeholder (n : Nat) : String := "TILE " ++ Nat.repr n

/-- The padding loop pushes one placeholder per iteration while the list is
shorter than 16, so it runs exactly 16 minus the length times. -/
def padGo : Nat → List String → List String
  | 0, ts => ts
  | n + 1, ts => padGo n (ts ++ [placeholder (ts.length + 1)])

/-- Pad a tile list with placeholder labels until its length is 16. -/
def padTiles (ts : List String) : List String := padGo (16 - ts.length) ts

/-- Reconciliation of a multi-pass run, as a function of the raw text each
recognition pass produced: take the first 16 of the union, pad a nonempty
union shorter than 16, or fail on an empty union. -/
def extractTextFromImage (passes : List String) : Except String (List String) :=
  let allFoundWords := unionWords passes
  if 16 ≤ allFoundWords.length then .ok (allFoundWords.take 16)
  else if 0 < allFoundWords.length then .ok (padTiles allFoundWords)
  else .error "Could not extract tiles from the image. Please try a clearer screenshot."

/-- Per-pixel luminance thresholding at the fixed cutoff 120 used by the
multi-pass pipeline: returns the channel value written to the pixel. -/
def thresholdPixel (r g b : ℚ) : Nat :=
  if 0.299 * r + 0.587 * g + 0.114 * b > 120 then 255 else 0

end MultiPass

namespace App

/-- Interface vocabulary filtered out by the single-pass pipeline validator. -/
def uiWords : List String :=
  ["CONNECTIONS", "CONNECTION", "CREATE", "SHUFFLE", "DESELECT", "SUBMIT",
   "TODAY", "ARCHIVE", "PLAY", "NYT", "GAMES", "MENU", "GAME",
   "MISTAKES", "REMAINING", "ONE", "TWO", "THREE", "FOUR", "FIVE",
   "NEXT", "BACK", "SHARE", "RESULTS", "VIEW", "ALL", "OF",
   "GROUPS", "GROUP", "CORRECT", "INCORRECT", "GUESS", "GUESSES",
   "SETTINGS", "HELP", "HOW", "TO", "THE", "AND", "FOR", "WITH",
   "YOUR", "YOU", "ARE", "WAS", "WERE", "BEEN", "BEING",
   "AM", "PM", "JAN", "FEB", "MAR", "APR", "MAY", "JUN",
   "JUL", "AUG", "SEP", "OCT", "NOV", "DEC"]

/-- Very short common words that are unlikely to be tiles. -/
def shortCommonWords : List String :=
  ["A", "I", "AN", "AS", "AT", "BE", "BY", "DO", "GO", "HE", "IF", "IN",
   "IS", "IT", "ME", "MY", "NO", "ON", "OR", "SO", "UP", "US", "WE"]

/-- Model of the clock-shape regex: one or two digits, a colon, two digits. -/
def isTimePattern (s : String) : Bool :=
  match s.data with
  | [a, ':', c, d] => a.isDigit && c.isDigit && d.isDigit
  | [a, b, ':', c, d] => a.isDigit && b.isDigit && c.isDigit && d.isDigit
  | _ => false

/-- Validator of the single-pass pipeline: length within 2..20, not interface
vocabulary, not clock-shaped, not all digits, containing at least one
uppercase letter, and not a very short common word. -/
def isValidTileWord (text : String) : Bool :=
  if text.length = 0 then false
  else if 20 < text.length then false
  else if text.length < 2 then false
  else if uiWords.contains text then false
  else if isTimePattern text then false
  else if isAllDigits text then false
  else if !(text.data.any isUpperAlpha) then false
  else if shortCommonWords.contains text then false
  else true

/-- Model of the whitespace class of the source regexes, restricted to the
ASCII whitespace occurring in OCR text. -/
def isJSWhitespace (c : Char) : Bool :=
  c == ' ' || c == '\t' || c == '\n' || c == '\r'

/-- JS String.prototype.trim: drop leading and trailing whitespace. -/
def trimStr (s : String) : String :=
  ⟨((s.data.dropWhile isJSWhitespace).reverse.dropWhile isJSWhitespace).reverse⟩

/-- The normalization text.trim().toUpperCase() applied to every candidate. -/
def normalizeText (s : String) : String := toUpperStr (trimStr s)

/-- First-seen de-duplication with an accumulated set of already seen
strings: the model of filtering through a Set that records each element. -/
def dedupAux (seen : List String) : List String → List String
  | [] => []
  | x :: xs => if x ∈ seen then dedupAux seen xs else x :: dedupAux (x :: seen) xs

/-- Remove duplicates while preserving first-seen order, as done by the
reconciliation in both extraction paths. -/
def dedupFirst (l : List String) : List String := dedupAux [] l

/-- Split a string at runs of whitespace.  The source split of an empty
string yields one empty fragment where this yields none; the validator
rejects empty fragments, so candidate admission is unaffected. -/
def splitWS (s : String) : List String :=
  (runs (fun c => !isJSWhitespace c) [] s.data).map (fun r => String.mk r)

/-- Raw-text fallback tokenization: split the text into lines, trim and
uppercase each line, split the line at whitespace, and trim each fragment. -/
def fallbackTokens (text : String) : List String :=
  (text.splitOn "\n").flatMap (fun line => (splitWS (normalizeText line)).map trimStr)

/-- Raw-text fallback extraction: keep the validated fragments, de-duplicated
in first-seen order.  It inspects only the raw text; no confidence exists. -/
def extractTilesFallback (text : String) : List String :=
  dedupFirst ((fallbackTokens text).filter isValidTileWord)

/-- One word of a recognition result that reports per-word data. -/
structure OCRWord where
  text : String
  confidence : ℚ
  x0 : ℚ
  y0 : ℚ
  x1 : ℚ
  y1 : ℚ
deriving DecidableEq, Repr

/-- A word candidate admitted to the pool, with its derived center point. -/
structure Candidate where
  text : String
  confidence : ℚ
  x0 : ℚ
  y0 : ℚ
  x1 : ℚ
  y1 : ℚ
  centerX : ℚ
  centerY : ℚ
deriving DecidableEq, Repr

/-- Build the pooled candidate from a reported word. -/
def toCandidate (w : OCRWord) : Candidate :=
  { text := normalizeText w.text, confidence := w.confidence,
    x0 := w.x0, y0 := w.y0, x1 := w.x1, y1 := w.y1,
    centerX := (w.x0 + w.x1) / 2, centerY := (w.y0 + w.y1) / 2 }

/-- Candidate collection from a recognition result with per-word data: a
word is admitted exactly when its normalized text validates and its reported
confidence exceeds 50. -/
def collectWords (ws : List OCRWord) : List Candidate :=
  (ws.filter (fun w =>
    isValidTileWord (normalizeText w.text) && decide (50 < w.confidence))).map toCandidate

/-- Sort candidates by vertical center, ascending and stable, the model of
the comparator on centerY differences (Array.prototype.sort is stable, and a
stable comparator sort is a single function of its input). -/
def sortByY (ws : List Candidate) : List Candidate :=
  ws.insertionSort (fun a b => a.centerY ≤ b.centerY)

/-- Math.min over a spread nonempty list (0 on the unreachable empty list). -/
def listMin : List ℚ → ℚ
  | [] => 0
  | y :: t => t.foldl min y

/-- Math.max over a spread nonempty list (0 on the unreachable empty list). -/
def listMax : List ℚ → ℚ
  | [] => 0
  | y :: t => t.foldl max y

/-- Band index of a vertical position: the floor of its offset divided by
the band height plus the 0.001 epsilon, clamped to the last row. -/
def rowIdx (numRows : Nat) (minY rowHeight y : ℚ) : Nat :=
  min (numRows - 1) (Int.toNat ⌊(y - minY) / (rowHeight + 1 / 1000)⌋)

/-- Equal-band row assignment: sort by vertical center, divide the vertical
span into numRows equal bands, and give each band its members in order. -/
def bandRows (words : List Candidate) (numRows : Nat) : List (List Candidate) :=
  let sorted := sortByY words
  let ys := sorted.map (fun w => w.centerY)
  let minY := listMin ys
  let rowHeight := (listMax ys - minY) / (numRows : ℚ)
  (List.range numRows).map (fun r =>
    sorted.filter (fun w => decide (rowIdx numRows minY rowHeight w.centerY = r)))

/-- Every band holds between 2 and 6 members. -/
def hasReasonableDistribution (rows : List (List Candidate)) : Bool :=
  rows.all (fun r => decide (2 ≤ r.length) && decide (r.length ≤ 6))

/-- Fallback split: row r receives, in order, the sorted candidates whose
index i satisfies min (numRows - 1) (i / 4) = r. -/
def redistributeRows (sorted : List Candidate) (numRows : Nat) : List (List Candidate) :=
  (List.range numRows).map (fun r =>
    ((sorted.enum.filter (fun p => decide (min (numRows - 1) (p.1 / 4) = r))).map Prod.snd))

/-- Cluster positioned candidates into rows: keep the equal-band assignment
unless some band population is implausible and at least 16 candidates exist,
in which case redistribute the sorted candidates in groups of 4. -/
def clusterIntoRows (words : List Candidate) (numRows : Nat) : List (List Candidate) :=
  if words.length = 0 then List.replicate numRows []
  else
    let rows := bandRows words numRows
    if !hasReasonableDistribution rows && decide (16 ≤ words.length) then
      redistributeRows (sortByY words) numRows
    else rows

/-- Swap the tiles at two indices: a no-op when the indices coincide or
either lies outside 0..15, otherwise exchange the two entries. -/
def swapTiles (tiles : List String) (indexA indexB : Int) : List String :=
  if indexA = indexB then tiles
  else if indexA < 0 ∨ 16 ≤ indexA ∨ indexB < 0 ∨ 16 ≤ indexB then tiles
  else
    (tiles.set indexA.toNat (tiles.getD indexB.toNat "")).set
      indexB.toNat (tiles.getD indexA.toNat "")

/-- Fisher-Yates loop body, counting the index i down to 1; at each step the
random draw Math.floor(Math.random() * (i + 1)) is a value in 0..i, modelled
by reducing the supplied random stream modulo i + 1. -/
def fisherYatesGo (r : Nat → Nat) : Nat → List String → List String
  | 0, t => t
  | i + 1, t =>
      let j := r (i + 1) % (i + 2)
      fisherYatesGo r i ((t.set (i + 1) (t.getD j "")).set j (t.getD (i + 1) ""))

/-- Fisher-Yates shuffle of the tile list under a given random stream. -/
def shuffleTiles (r : Nat → Nat) (tiles : List String) : List String :=
  fisherYatesGo r (tiles.length - 1) tiles

end App

namespace Tune

/-- Luminance of a pixel from its red, green and blue channels. -/
def luminance (r g b : ℚ) : ℚ := 0.299 * r + 0.587 * g + 0.114 * b

/-- Per-pixel thresholding of the tuning script: a pixel becomes white when
its luminance exceeds the cutoff (flipped when inverting), else black; the
result is the written (r, g, b) triple. -/
def processPixel (r g b cutoff : ℚ) (invert : Bool) : Nat × Nat × Nat :=
  let isLight := decide (luminance r g b > cutoff)
  let isLight2 := if invert then !isLight else isLight
  if isLight2 then (255, 255, 255) else (0, 0, 0)

end Tune

/-- Sample positioned candidate with a given text and vertical center. -/
def sampleCand (t : String) (y : ℚ) : App.Candidate :=
  { text := t, confidence := 90, x0 := 0, y0 := 0, x1 := 0, y1 := 0,
    centerX := 0, centerY := y }

/-- Three positioned candidates whose band assignment is implausible. -/
def wordsThree : List App.Candidate :=
  [sampleCand "A" 0, sampleCand "B" 100, sampleCand "C" 200]

/-- Sixteen positioned candidates on one line, all landing in one band. -/
def wordsSixteen : List App.Candidate := List.replicate 16 (sampleCand "X" 0)

/-- Sample 16-entry tile list. -/
def sampleTiles : List String := (List.range 16).map Nat.repr

/-- Sample random stream for the shuffle. -/
def sampleRand : Nat → Nat := fun i => 7 * i + 3

/-- Sample run whose single pass text yields sixteen validated candidates. -/
def samplePassesBig : List String :=
  ["CAT DOG FISH BIRD LION TIGER BEAR WOLF FROG DEER GOAT DUCK SWAN CRAB MOTH WASP"]

/-- Sample run whose passes yield two validated candidates. -/
def samplePassesSmall : List String := ["CAT DOG"]

/-- Sample run whose passes yield no validated candidate. -/
def samplePassesNone : List String := ["42 11:29 EEEE"]

namespace MultiPass

theorem padGo_eq (n : Nat) :
    ∀ ts : List String,
      padGo n ts = ts ++ (List.range' (ts.length + 1) n).map placeholder := by
  induction n with
  | zero => intro ts; simp [padGo]
  | succ n ih =>
      intro ts
      rw [padGo, ih]
      simp [List.range'_succ]

theorem padTiles_eq (ts : List String) :
    padTiles ts = ts ++ (List.range' (ts.length + 1) (16 - ts.length)).map placeholder :=
  padGo_eq _ ts

theorem mem_foldl_insertWord :
    ∀ (ws acc : List String) (a : String),
      a ∈ ws.foldl insertWord acc → a ∈ acc ∨ a ∈ ws := by
  intro ws
  induction ws with
  | nil => intro acc a h; exact .inl h
  | cons x xs ih =>
      intro acc a h
      rcases ih (insertWord acc x) a h with h' | h'
      · unfold insertWord at h'
        split at h'
        · exact .inl h'
        · rcases List.mem_append.1 h' with h'' | h''
          · exact .inl h''
          · exact .inr (by simp at h''; simp [h''])
      · exact .inr (List.mem_cons_of_mem _ h')

theorem mem_addFoundWords (acc : List String) (t a : String)
    (h : a ∈ addFoundWords acc t) :
    a ∈ acc ∨ (a ∈ extractWordsFromText t ∧ isValidTileWord a = true) := by
  rcases mem_foldl_insertWord _ _ _ h with h' | h'
  · exact .inl h'
  · exact .inr (List.mem_filter.1 h')

theorem runs_chars (p : Char → Bool) :
    ∀ (cs cur : List Char), (∀ c ∈ cur, p c = true) →
      ∀ r ∈ runs p cur cs, ∀ c ∈ r, p c = true := by
  intro cs
  induction cs with
  | nil =>
      intro cur hcur r hr c hc
      unfold runs at hr
      split at hr
      · simp at hr
      · simp at hr
        subst hr
        exact hcur c (List.mem_reverse.1 hc)
  | cons d ds ih =>
      intro cur hcur r hr
      unfold runs at hr
      by_cases hd : p d
      · rw [if_pos hd] at hr
        exact ih (d :: cur) (by
          intro c hc
          rcases List.mem_cons.1 hc with h | h
          · exact h ▸ hd
          · exact hcur c h) r hr
      · rw [if_neg hd] at hr
        split at hr
        · exact ih [] (by simp) r hr
        · rcases List.mem_cons.1 hr with h | h
          · intro c hc
            exact hcur c (List.mem_reverse.1 (h ▸ hc))
          · exact ih [] (by simp) r h

theorem extractWords_chars (t a : String) (h : a ∈ extractWordsFromText t) :
    ∀ c ∈ a.data, isUpperAlpha c = true := by
  unfold extractWordsFromText at h
  rcases List.mem_map.1 h with ⟨r, hr, hra⟩
  have hr' := (List.mem_filter.1 hr).1
  intro c hc
  exact runs_chars isUpperAlpha _ [] (by simp) r hr' c (by
    rw [← hra] at hc
    exact hc)

theorem unionWords_prop :
    ∀ (passes acc : List String),
      (∀ w ∈ acc, isValidTileWord w = true ∧ ∀ c ∈ w.data, isUpperAlpha c = true) →
      ∀ w ∈ passes.foldl addFoundWords acc,
        isValidTileWord w = true ∧ ∀ c ∈ w.data, isUpperAlpha c = true := by
  intro passes
  induction passes with
  | nil => intro acc hacc w hw; exact hacc w hw
  | cons t ts ih =>
      intro acc hacc w hw
      refine ih (addFoundWords acc t) ?_ w hw
      intro v hv
      rcases mem_addFoundWords acc t v hv with h | ⟨h1, h2⟩
      · exact hacc v h
      · exact ⟨h2, extractWords_chars t v h1⟩

theorem mem_unionWords (passes : List String) (w : String) (h : w ∈ unionWords passes) :
    isValidTileWord w = true ∧ ∀ c ∈ w.data, isUpperAlpha c = true :=
  unionWords_prop passes [] (by simp) w h

theorem placeholder_space (n : Nat) : ' ' ∈ (placeholder n).data := by
  unfold placeholder
  rw [String.data_append]
  exact List.mem_append_left _ (by decide)

theorem placeholder_ne (w : String) (hw : ∀ c ∈ w.data, isUpperAlpha c = true)
    (n : Nat) : placeholder n ≠ w := by
  intro h
  have := hw ' ' (h ▸ placeholder_space n)
  simp [isUpperAlpha] at this

theorem placeholder_inj17 :
    ∀ i, i < 17 → ∀ j, j < 17 → i ≠ j → placeholder i ≠ placeholder j := by decide

end MultiPass

/-- Claim C1: in every run whose validated candidate union has at least 16
entries before truncation, extraction succeeds with exactly the first 16
entries of the union in order, each of which is a member of the union,
validated, and not a synthetic placeholder. -/
theorem claim1_union_ge16_truncates (passes : List String)
    (h : 16 ≤ (MultiPass.unionWords passes).length) :
    MultiPass.extractTextFromImage passes = .ok ((MultiPass.unionWords passes).take 16) ∧
    ((MultiPass.unionWords passes).take 16).length = 16 ∧
    ∀ w ∈ (MultiPass.unionWords passes).take 16,
      w ∈ MultiPass.unionWords passes ∧ MultiPass.isValidTileWord w = true ∧
        ∀ n, w ≠ MultiPass.placeholder n := by
  refine ⟨?_, ?_, ?_⟩
  · unfold MultiPass.extractTextFromImage
    rw [if_pos h]
  · simp [List.length_take]
    omega
  · intro w hw
    have hmem : w ∈ MultiPass.unionWords passes := List.mem_of_mem_take hw
    have hp := MultiPass.mem_unionWords passes w hmem
    exact ⟨hmem, hp.1, fun n => (MultiPass.placeholder_ne w hp.2 n).symm⟩

/-- Witness for claim C1: a concrete run with a sixteen-candidate union. -/
theorem claim1_union_ge16_truncates_witness :
    16 ≤ (MultiPass.unionWords samplePassesBig).length ∧
    (MultiPass.extractTextFromImage samplePassesBig =
        .ok ((MultiPass.unionWords samplePassesBig).take 16) ∧
      ((MultiPass.unionWords samplePassesBig).take 16).length = 16 ∧
      ∀ w ∈ (MultiPass.unionWords samplePassesBig).take 16,
        w ∈ MultiPass.unionWords samplePassesBig ∧ MultiPass.isValidTileWord w = true ∧
          ∀ n, w ≠ MultiPass.placeholder n) :=
  ⟨by decide, claim1_union_ge16_truncates samplePassesBig (by decide)⟩

/-- Claim C2: in every run that ends with between 1 and 15 validated
candidates, extraction succeeds with a 16-entry list whose first entries are
exactly the real candidates and whose remaining entries are pairwise distinct
synthetic placeholders, each different from every real candidate. -/
theorem claim2_pad_to_16 (passes : List String)
    (h1 : 1 ≤ (MultiPass.unionWords passes).length)
    (h2 : (MultiPass.unionWords passes).length ≤ 15) :
    MultiPass.extractTextFromImage passes =
      .ok (MultiPass.padTiles (MultiPass.unionWords passes)) ∧
    (MultiPass.padTiles (MultiPass.unionWords passes)).length = 16 ∧
    (MultiPass.padTiles (MultiPass.unionWords passes)).take
        (MultiPass.unionWords passes).length = MultiPass.unionWords passes ∧
    ((MultiPass.padTiles (MultiPass.unionWords passes)).drop
        (MultiPass.unionWords passes).length).Nodup ∧
    ∀ p ∈ (MultiPass.padTiles (MultiPass.unionWords passes)).drop
        (MultiPass.unionWords passes).length,
      (∃ n, p = MultiPass.placeholder n) ∧ ∀ w ∈ MultiPass.unionWords passes, p ≠ w := by
  refine ⟨?_, ?_, ?_, ?_, ?_⟩
  · unfold MultiPass.extractTextFromImage
    rw [if_neg (by omega), if_pos (by omega)]
  · rw [MultiPass.padTiles_eq]
    simp
    omega
  · rw [MultiPass.padTiles_eq]
    exact List.take_left _ _
  · rw [MultiPass.padTiles_eq, List.drop_left]
    refine List.Nodup.map_on ?_ (List.nodup_range' _ _)
    intro x hx y hy hxy
    by_contra hne
    rcases List.mem_range'_1.1 hx with ⟨hx1, hx2⟩
    rcases List.mem_range'_1.1 hy with ⟨hy1, hy2⟩
    exact MultiPass.placeholder_inj17 x (by omega) y (by omega) hne hxy
  · intro p hp
    rw [MultiPass.padTiles_eq, List.drop_left] at hp
    rcases List.mem_map.1 hp with ⟨k, _, hkp⟩
    refine ⟨⟨k, hkp.symm⟩, ?_⟩
    intro w hw
    rw [← hkp]
    exact MultiPass.placeholder_ne w (MultiPass.mem_unionWords passes w hw).2 k

/-- Witness for claim C2: a concrete run with a two-candidate union. -/
theorem claim2_pad_to_16_witness :
    (1 ≤ (MultiPass.unionWords samplePassesSmall).length ∧
      (MultiPass.unionWords samplePassesSmall).length ≤ 15) ∧
    (MultiPass.extractTextFromImage samplePassesSmall =
        .ok (MultiPass.padTiles (MultiPass.unionWords samplePassesSmall)) ∧
      (MultiPass.padTiles (MultiPass.unionWords samplePassesSmall)).length = 16 ∧
      (MultiPass.padTiles (MultiPass.unionWords samplePassesSmall)).take
          (MultiPass.unionWords samplePassesSmall).length =
        MultiPass.unionWords samplePassesSmall ∧
      ((MultiPass.padTiles (MultiPass.unionWords samplePassesSmall)).drop
          (MultiPass.unionWords samplePassesSmall).length).Nodup ∧
      ∀ p ∈ (MultiPass.padTiles (MultiPass.unionWords samplePassesSmall)).drop
          (MultiPass.unionWords samplePassesSmall).length,
        (∃ n, p = MultiPass.placeholder n) ∧
          ∀ w ∈ MultiPass.unionWords samplePassesSmall, p ≠ w) :=
  ⟨⟨by decide, by decide⟩,
    claim2_pad_to_16 samplePassesSmall (by decide) (by decide)⟩

/-- Claim C3: a run whose passes yield an empty validated union fails with
the extraction error and produces no tile list at all. -/
theorem claim3_empty_union_errors (passes : List String)
    (h : MultiPass.unionWords passes = []) :
    MultiPass.extractTextFromImage passes =
      .error "Could not extract tiles from the image. Please try a clearer screenshot." := by
  simp [MultiPass.extractTextFromImage, h]

/-- Witness for claim C3: a concrete run yielding no validated candidate. -/
theorem claim3_empty_union_errors_witness :
    MultiPass.unionWords samplePassesNone = [] ∧
    MultiPass.extractTextFromImage samplePassesNone =
      .error "Could not extract tiles from the image. Please try a clearer screenshot." :=
  ⟨by decide, claim3_empty_union_errors samplePassesNone (by decide)⟩

/-- Claim C5: the validator rejects SHUFFLE, the clock token 11:29, the pure
number 42 and the degenerate repeat EEEE, and accepts CREDIT and VILLAGER. -/
theorem claim5_validator_examples :
    MultiPass.isValidTileWord "SHUFFLE" = false ∧
    MultiPass.isValidTileWord "11:29" = false ∧
    MultiPass.isValidTileWord "42" = false ∧
    MultiPass.isValidTileWord "EEEE" = false ∧
    MultiPass.isValidTileWord "CREDIT" = true ∧
    MultiPass.isValidTileWord "VILLAGER" = true := by decide

namespace App

theorem mem_dedupAux (a : String) :
    ∀ (l seen : List String), a ∈ dedupAux seen l ↔ a ∈ l ∧ a ∉ seen := by
  intro l
  induction l with
  | nil => intro seen; simp [dedupAux]
  | cons x xs ih =>
      intro seen
      unfold dedupAux
      split
      · rename_i hx
        rw [ih]
        constructor
        · rintro ⟨h1, h2⟩
          exact ⟨List.mem_cons_of_mem _ h1, h2⟩
        · rintro ⟨h1, h2⟩
          rcases List.mem_cons.1 h1 with rfl | h1
          · exact absurd hx h2
          · exact ⟨h1, h2⟩
      · rename_i hx
        rw [List.mem_cons, ih]
        constructor
        · rintro (rfl | ⟨h1, h2⟩)
          · exact ⟨List.mem_cons_self _ _, hx⟩
          · exact ⟨List.mem_cons_of_mem _ h1,
              fun hs => h2 (List.mem_cons_of_mem _ hs)⟩
        · rintro ⟨h1, h2⟩
          rcases List.mem_cons.1 h1 with rfl | h1
          · exact .inl rfl
          · by_cases hax : a = x
            · exact .inl hax
            · exact .inr ⟨h1, fun hs => by
                rcases List.mem_cons.1 hs with h | h
                · exact hax h
                · exact h2 h⟩

theorem sublist_dedupAux : ∀ (l seen : List String), List.Sublist (dedupAux seen l) l := by
  intro l
  induction l with
  | nil => intro seen; simp [dedupAux]
  | cons x xs ih =>
      intro seen
      unfold dedupAux
      split
      · exact (ih seen).trans (List.sublist_cons_self x xs)
      · exact (ih (x :: seen)).cons₂ x

theorem nodup_dedupAux : ∀ (l seen : List String), (dedupAux seen l).Nodup := by
  intro l
  induction l with
  | nil => intro seen; simp [dedupAux]
  | cons x xs ih =>
      intro seen
      unfold dedupAux
      split
      · exact ih seen
      · refine List.nodup_cons.2 ⟨?_, ih (x :: seen)⟩
        intro hmem
        exact ((mem_dedupAux x xs (x :: seen)).1 hmem).2 (List.mem_cons_self _ _)

theorem pairwise_dedupAux :
    ∀ (l seen : List String),
      (dedupAux seen l).Pairwise (fun a b => l.indexOf a < l.indexOf b) := by
  intro l
  induction l with
  | nil => intro seen; simp [dedupAux]
  | cons x xs ih =>
      intro seen
      unfold dedupAux
      split
      · rename_i hx
        refine (ih seen).imp_of_mem ?_
        intro a b ha hb hab
        have ha' := (mem_dedupAux a xs seen).1 ha
        have hb' := (mem_dedupAux b xs seen).1 hb
        have hax : x ≠ a := fun h => ha'.2 (h ▸ hx)
        have hbx : x ≠ b := fun h => hb'.2 (h ▸ hx)
        rw [List.indexOf_cons_ne _ hax, List.indexOf_cons_ne _ hbx]
        exact Nat.succ_lt_succ hab
      · rename_i hx
        refine List.Pairwise.cons ?_ ?_
        · intro b hb
          have hb' := (mem_dedupAux b xs (x :: seen)).1 hb
          have hbx : x ≠ b := fun h => hb'.2 (h ▸ List.mem_cons_self x seen)
          rw [List.indexOf_cons_self, List.indexOf_cons_ne _ hbx]
          exact Nat.succ_pos _
        · refine (ih (x :: seen)).imp_of_mem ?_
          intro a b ha hb hab
          have ha' := (mem_dedupAux a xs (x :: seen)).1 ha
          have hb' := (mem_dedupAux b xs (x :: seen)).1 hb
          have hax : x ≠ a := fun h => ha'.2 (h ▸ List.mem_cons_self x seen)
          have hbx : x ≠ b := fun h => hb'.2 (h ▸ List.mem_cons_self x seen)
          rw [List.indexOf_cons_ne _ hax, List.indexOf_cons_ne _ hbx]
          exact Nat.succ_lt_succ hab

end App

/-- Claim C4: the reconciliation de-duplication keeps exactly the first
occurrence of each distinct string, preserving the relative order of first
occurrences: the result is a duplicate-free sublist with the same members,
listed in strictly increasing order of first occurrence, and the stream CAT,
DOG, CAT, FISH reconciles to CAT, DOG, FISH. -/
theorem claim4_dedup_first_seen :
    (∀ l : List String,
      List.Sublist (App.dedupFirst l) l ∧
      (App.dedupFirst l).Nodup ∧
      (∀ a, a ∈ App.dedupFirst l ↔ a ∈ l) ∧
      (App.dedupFirst l).Pairwise (fun a b => l.indexOf a < l.indexOf b)) ∧
    App.dedupFirst ["CAT", "DOG", "CAT", "FISH"] = ["CAT", "DOG", "FISH"] := by
  constructor
  · intro l
    refine ⟨App.sublist_dedupAux l [], App.nodup_dedupAux l [], ?_,
      App.pairwise_dedupAux l []⟩
    intro a
    rw [App.dedupFirst, App.mem_dedupAux]
    simp
  · decide

/-- Claim C8: a word of a recognition result with per-word data is admitted
to the candidate pool exactly when its normalized text validates and its
reported confidence exceeds the gate of 50, while the raw-text fallback
admits a fragment exactly when it validates, with no confidence involved. -/
theorem claim8_confidence_gate :
    (∀ (ws : List App.OCRWord) (c : App.Candidate),
      c ∈ App.collectWords ws ↔
        ∃ w ∈ ws,
          (App.isValidTileWord (App.normalizeText w.text) = true ∧ 50 < w.confidence) ∧
          c = App.toCandidate w) ∧
    (∀ text t : String,
      t ∈ App.extractTilesFallback text ↔
        App.isValidTileWord t = true ∧ t ∈ App.fallbackTokens text) := by
  constructor
  · intro ws c
    unfold App.collectWords
    rw [List.mem_map]
    constructor
    · rintro ⟨w, hw, rfl⟩
      have h := List.mem_filter.1 hw
      have h2 := h.2
      simp only [Bool.and_eq_true, decide_eq_true_eq] at h2
      exact ⟨w, h.1, ⟨h2.1, h2.2⟩, rfl⟩
    · rintro ⟨w, hw, ⟨h1, h2⟩, rfl⟩
      refine ⟨w, List.mem_filter.2 ⟨hw, ?_⟩, rfl⟩
      simp only [Bool.and_eq_true, decide_eq_true_eq]
      exact ⟨h1, h2⟩
  · intro text t
    unfold App.extractTilesFallback App.dedupFirst
    rw [App.mem_dedupAux, List.mem_filter]
    simp only [List.not_mem_nil, not_false_eq_true, and_true]
    exact ⟨fun h => ⟨h.2, h.1⟩, fun h => ⟨h.2, h.1⟩⟩

namespace App

theorem getD_eq_getElem (l : List String) (n : Nat) (h : n < l.length) :
    l.getD n "" = l[n] := by
  simp [List.getD_eq_getElem?_getD, List.getElem?_eq_getElem h]

theorem swap_set_perm (l : List String) (i j : Nat) (hi : i < l.length)
    (hj : j < l.length) :
    List.Perm ((l.set i (l.getD j "")).set j (l.getD i "")) l := by
  rw [getD_eq_getElem l i hi, getD_eq_getElem l j hj]
  by_cases hij : i = j
  · subst hij
    rw [List.set_set, List.perm_iff_count]
    intro x
    rw [List.count_set _ _ _ _ hi]
    have hcx : (if l[i] == x then 1 else 0) ≤ l.count x := by
      split
      · rename_i hbeq
        exact List.count_pos_iff.2 (eq_of_beq hbeq ▸ List.getElem_mem hi)
      · exact Nat.zero_le _
    omega
  · rw [List.perm_iff_count]
    intro x
    have hj2 : j < (l.set i l[j]).length := by simp [hj]
    rw [List.count_set _ _ _ _ hj2, List.count_set _ _ _ _ hi]
    rw [List.getElem_set_ne hij]
    have hcxi : (if l[i] == x then 1 else 0) ≤ l.count x := by
      split
      · rename_i hbeq
        exact List.count_pos_iff.2 (eq_of_beq hbeq ▸ List.getElem_mem hi)
      · exact Nat.zero_le _
    have hcxj : (if l[j] == x then 1 else 0) ≤ l.count x := by
      split
      · rename_i hbeq
        exact List.count_pos_iff.2 (eq_of_beq hbeq ▸ List.getElem_mem hj)
      · exact Nat.zero_le _
    omega

theorem fisherYatesGo_perm (r : Nat → Nat) :
    ∀ (n : Nat) (t : List String), n < t.length →
      List.Perm (fisherYatesGo r n t) t := by
  intro n
  induction n with
  | zero => intro t _; exact List.Perm.refl _
  | succ n ih =>
      intro t h
      unfold fisherYatesGo
      have hjlt : r (n + 1) % (n + 2) < t.length := by
        have := Nat.mod_lt (r (n + 1)) (show 0 < n + 2 by omega)
        omega
      have hswap := swap_set_perm t (n + 1) (r (n + 1) % (n + 2)) h hjlt
      have hlen :
          ((t.set (n + 1) (t.getD (r (n + 1) % (n + 2)) "")).set
            (r (n + 1) % (n + 2)) (t.getD (n + 1) "")).length = t.length := by
        simp
      exact (ih _ (by omega)).trans hswap

end App

/-- Claim C9: on a 16-entry tile list, the swap is the identity when the two
indices coincide or either lies outside 0..15, and otherwise exchanges the
two addressed entries while leaving every other position unchanged. -/
theorem claim9_swap_frame (tiles : List String) (hlen : tiles.length = 16)
    (a b : Int) :
    ((a = b ∨ a < 0 ∨ 16 ≤ a ∨ b < 0 ∨ 16 ≤ b) → App.swapTiles tiles a b = tiles) ∧
    (a ≠ b → 0 ≤ a → a < 16 → 0 ≤ b → b < 16 →
      (App.swapTiles tiles a b).length = 16 ∧
      (App.swapTiles tiles a b).getD a.toNat "" = tiles.getD b.toNat "" ∧
      (App.swapTiles tiles a b).getD b.toNat "" = tiles.getD a.toNat "" ∧
      ∀ i : Nat, i < 16 → i ≠ a.toNat → i ≠ b.toNat →
        (App.swapTiles tiles a b).getD i "" = tiles.getD i "") := by
  constructor
  · intro h
    unfold App.swapTiles
    by_cases hab : a = b
    · rw [if_pos hab]
    · rw [if_neg hab, if_pos (by tauto)]
  · intro hab h0a ha h0b hb
    have hswap : App.swapTiles tiles a b =
        (tiles.set a.toNat (tiles.getD b.toNat "")).set b.toNat
          (tiles.getD a.toNat "") := by
      unfold App.swapTiles
      rw [if_neg hab, if_neg (by omega)]
    have han : a.toNat < tiles.length := by omega
    have hbn : b.toNat < tiles.length := by omega
    have hne : a.toNat ≠ b.toNat := by omega
    have hlen2 : (App.swapTiles tiles a b).length = 16 := by
      rw [hswap]
      simp [hlen]
    refine ⟨hlen2, ?_, ?_, ?_⟩
    · rw [hswap, App.getD_eq_getElem _ _ (by simp [han])]
      simp only [List.getElem_set_ne (show b.toNat ≠ a.toNat from fun h => hne h.symm),
        List.getElem_set_self]
    · rw [hswap, App.getD_eq_getElem _ _ (by simp [hbn])]
      simp only [List.getElem_set_self]
    · intro i hi hia hib
      rw [hswap]
      simp only [List.getD_eq_getElem?_getD,
        List.getElem?_set_ne (show b.toNat ≠ i from fun h => hib h.symm),
        List.getElem?_set_ne (show a.toNat ≠ i from fun h => hia h.symm)]

/-- Witness for claim C9 on a concrete 16-entry list at indices 0 and 1. -/
theorem claim9_swap_frame_witness :
    sampleTiles.length = 16 ∧
    ((App.swapTiles sampleTiles 0 1).length = 16 ∧
      (App.swapTiles sampleTiles 0 1).getD (0 : Int).toNat "" =
        sampleTiles.getD (1 : Int).toNat "" ∧
      (App.swapTiles sampleTiles 0 1).getD (1 : Int).toNat "" =
        sampleTiles.getD (0 : Int).toNat "" ∧
      ∀ i : Nat, i < 16 → i ≠ (0 : Int).toNat → i ≠ (1 : Int).toNat →
        (App.swapTiles sampleTiles 0 1).getD i "" = sampleTiles.getD i "") :=
  ⟨by decide,
    (claim9_swap_frame sampleTiles (by decide) 0 1).2
      (by decide) (by decide) (by decide) (by decide) (by decide)⟩

/-- Claim C10: for every tile list and every random stream the shuffle is a
permutation of the input, preserving the multiset of tiles, and on a
16-entry list the swap preserves the same multiset invariant. -/
theorem claim10_shuffle_perm (tiles : List String) (r : Nat → Nat) :
    List.Perm (App.shuffleTiles r tiles) tiles ∧
    ∀ a b : Int, tiles.length = 16 → List.Perm (App.swapTiles tiles a b) tiles := by
  constructor
  · unfold App.shuffleTiles
    by_cases h : tiles.length = 0
    · rw [h]
      exact List.Perm.refl _
    · exact App.fisherYatesGo_perm r _ tiles (by omega)
  · intro a b hlen
    unfold App.swapTiles
    by_cases h1 : a = b
    · rw [if_pos h1]
    · rw [if_neg h1]
      by_cases h2 : a < 0 ∨ 16 ≤ a ∨ b < 0 ∨ 16 ≤ b
      · rw [if_pos h2]
      · rw [if_neg h2]
        exact App.swap_set_perm tiles _ _ (by omega) (by omega)

/-- Witness for claim C10 on a concrete 16-entry list. -/
theorem claim10_shuffle_perm_witness :
    List.Perm (App.shuffleTiles sampleRand sampleTiles) sampleTiles ∧
    List.Perm (App.swapTiles sampleTiles 2 5) sampleTiles :=
  ⟨(claim10_shuffle_perm sampleTiles sampleRand).1,
    (claim10_shuffle_perm sampleTiles sampleRand).2 2 5 (by decide)⟩

/-- Claim C7: thresholding computes the luminance 0.299 R + 0.587 G +
0.114 B and writes white exactly when it strictly exceeds the cutoff and
black otherwise; a uniform 200 pixel at cutoff 120 becomes white, a uniform
10 pixel black, and the fixed-cutoff thresholding of the multi-pass pipeline
agrees with the parametrised one at cutoff 120. -/
theorem claim7_threshold_exact :
    (∀ r g b cutoff : ℚ,
      Tune.processPixel r g b cutoff false =
        if 0.299 * r + 0.587 * g + 0.114 * b > cutoff then (255, 255, 255)
        else (0, 0, 0)) ∧
    Tune.processPixel 200 200 200 120 false = (255, 255, 255) ∧
    Tune.processPixel 10 10 10 120 false = (0, 0, 0) ∧
    ∀ r g b : ℚ, MultiPass.thresholdPixel r g b = (Tune.processPixel r g b 120 false).1 := by
  have hmain : ∀ r g b cutoff : ℚ,
      Tune.processPixel r g b cutoff false =
        if 0.299 * r + 0.587 * g + 0.114 * b > cutoff then (255, 255, 255)
        else (0, 0, 0) := by
    intro r g b cutoff
    unfold Tune.processPixel Tune.luminance
    by_cases h : 0.299 * r + 0.587 * g + 0.114 * b > cutoff
    · simp [h]
    · simp [h]
  refine ⟨hmain, ?_, ?_, ?_⟩
  · rw [hmain]
    norm_num
  · rw [hmain]
    norm_num
  · intro r g b
    rw [hmain]
    unfold MultiPass.thresholdPixel
    by_cases h : 0.299 * r + 0.587 * g + 0.114 * b > 120
    · simp [h]
    · simp [h]

theorem enumFrom_filter_lt {α : Type} (k : Nat) :
    ∀ (s : List α) (n : Nat),
      ((s.enumFrom n).filter (fun p => decide (p.1 < k))).map Prod.snd = s.take (k - n) := by
  intro s
  induction s with
  | nil => intro n; simp
  | cons a as ih =>
      intro n
      rw [List.enumFrom_cons]
      by_cases h : n < k
      · rw [List.filter_cons_of_pos (by simpa using h), List.map_cons, ih]
        have hkn : k - n = (k - (n + 1)) + 1 := by omega
        rw [hkn, List.take_succ_cons]
      · rw [List.filter_cons_of_neg (by simpa using h), ih]
        have e1 : k - n = 0 := by omega
        have e2 : k - (n + 1) = 0 := by omega
        rw [e1, e2]
        simp

theorem enumFrom_filter_ge {α : Type} (k : Nat) :
    ∀ (s : List α) (n : Nat),
      ((s.enumFrom n).filter (fun p => decide (k ≤ p.1))).map Prod.snd = s.drop (k - n) := by
  intro s
  induction s with
  | nil => intro n; simp
  | cons a as ih =>
      intro n
      rw [List.enumFrom_cons]
      by_cases h : k ≤ n
      · rw [List.filter_cons_of_pos (by simpa using h), List.map_cons, ih]
        have e1 : k - n = 0 := by omega
        have e2 : k - (n + 1) = 0 := by omega
        rw [e1, e2]
        simp
      · rw [List.filter_cons_of_neg (by simpa using h), ih]
        have hkn : k - n = (k - (n + 1)) + 1 := by omega
        rw [hkn, List.drop_succ_cons]

theorem enumFrom_filter_band {α : Type} (k m : Nat) :
    ∀ (s : List α) (n : Nat),
      ((s.enumFrom n).filter
        (fun p => decide (k ≤ p.1) && decide (p.1 < m))).map Prod.snd
        = (s.drop (k - n)).take (m - max k n) := by
  intro s
  induction s with
  | nil => intro n; simp
  | cons a as ih =>
      intro n
      rw [List.enumFrom_cons]
      by_cases h1 : k ≤ n
      · by_cases h2 : n < m
        · rw [List.filter_cons_of_pos (by simp [h1, h2]), List.map_cons, ih]
          have e1 : k - n = 0 := by omega
          have e2 : k - (n + 1) = 0 := by omega
          have e3 : max k (n + 1) = n + 1 := by omega
          have e4 : max k n = n := by omega
          have e5 : m - n = (m - (n + 1)) + 1 := by omega
          rw [e1, e2, e3, e4, List.drop_zero, List.drop_zero, e5, List.take_succ_cons]
        · rw [List.filter_cons_of_neg (by simp [h2]), ih]
          have e1 : k - n = 0 := by omega
          have e2 : k - (n + 1) = 0 := by omega
          have e3 : m - max k n = 0 := by omega
          have e4 : m - max k (n + 1) = 0 := by omega
          rw [e1, e2, e3, e4]
          simp
      · rw [List.filter_cons_of_neg (by simp [h1]), ih]
        have e1 : k - n = (k - (n + 1)) + 1 := by omega
        have e2 : max k n = k := by omega
        have e3 : max k (n + 1) = k := by omega
        rw [e1, e2, e3, List.drop_succ_cons]

/-- Counterexample to claim C6: with three positioned candidates at vertical
centers 0, 100 and 200, the equal-band assignment has bands of population
1, 1, 0 and 1, all outside 2..6, yet the clusterer keeps that assignment and
does not return the strict index-over-4 split, which would put all three
candidates into the first row. -/
theorem claim6_small_set_keeps_bands :
    App.hasReasonableDistribution (App.bandRows wordsThree 4) = false ∧
    App.clusterIntoRows wordsThree 4 =
      [[sampleCand "A" 0], [sampleCand "B" 100], [], [sampleCand "C" 200]] ∧
    App.clusterIntoRows wordsThree 4 ≠
      [[sampleCand "A" 0, sampleCand "B" 100, sampleCand "C" 200], [], [], []] := by
  have h1 : App.hasReasonableDistribution (App.bandRows wordsThree 4) = false := by
    norm_num [App.hasReasonableDistribution, App.bandRows, App.sortByY, App.rowIdx,
      App.listMin, App.listMax, wordsThree, sampleCand, List.insertionSort,
      List.orderedInsert, List.range, List.range.loop]
  have h2 : App.clusterIntoRows wordsThree 4 =
      [[sampleCand "A" 0], [sampleCand "B" 100], [], [sampleCand "C" 200]] := by
    norm_num [App.clusterIntoRows, App.hasReasonableDistribution, App.bandRows,
      App.sortByY, App.rowIdx, App.listMin, App.listMax, wordsThree, sampleCand,
      List.insertionSort, List.orderedInsert, List.range, List.range.loop]
  refine ⟨h1, h2, ?_⟩
  rw [h2]
  intro hcontra
  simp at hcontra

/-- Claim C6 as amended: when the equal-band assignment has a band outside
2..6 and there are at least 16 candidates, the clusterer discards the bands
and splits the candidates, sorted by vertical center, into consecutive
groups of 4 top to bottom, the last row receiving every candidate from
index 12 on; with fewer than 16 candidates the band assignment is kept. -/
theorem claim6_oversized_set_redistributes (words : List App.Candidate)
    (h1 : App.hasReasonableDistribution (App.bandRows words 4) = false)
    (h2 : 16 ≤ words.length) :
    App.clusterIntoRows words 4 =
      [(App.sortByY words).take 4,
       ((App.sortByY words).drop 4).take 4,
       ((App.sortByY words).drop 8).take 4,
       (App.sortByY words).drop 12] := by
  unfold App.clusterIntoRows
  rw [if_neg (by omega), if_pos (by simp [h1, h2])]
  unfold App.redistributeRows
  have hrange : List.range 4 = [0, 1, 2, 3] := rfl
  have h41 : (4 : Nat) - 1 = 3 := rfl
  rw [hrange, h41]
  simp only [List.map_cons, List.map_nil]
  have henum : (App.sortByY words).enum = (App.sortByY words).enumFrom 0 := rfl
  have hc0 : ∀ p ∈ (App.sortByY words).enum,
      (decide (min 3 (p.1 / 4) = 0) : Bool) = decide (p.1 < 4) := by
    intro p _
    rw [decide_eq_decide]
    omega
  have c0 : ((App.sortByY words).enum.filter
      (fun p => decide (min 3 (p.1 / 4) = 0))).map Prod.snd =
      (App.sortByY words).take 4 := by
    rw [List.filter_congr hc0, henum, enumFrom_filter_lt 4 (App.sortByY words) 0]
  have hc1 : ∀ p ∈ (App.sortByY words).enum,
      (decide (min 3 (p.1 / 4) = 1) : Bool) = (decide (4 ≤ p.1) && decide (p.1 < 8)) := by
    intro p _
    rw [← Bool.decide_and, decide_eq_decide]
    omega
  have c1 : ((App.sortByY words).enum.filter
      (fun p => decide (min 3 (p.1 / 4) = 1))).map Prod.snd =
      ((App.sortByY words).drop 4).take 4 := by
    rw [List.filter_congr hc1, henum, enumFrom_filter_band 4 8 (App.sortByY words) 0]
    norm_num
  have hc2 : ∀ p ∈ (App.sortByY words).enum,
      (decide (min 3 (p.1 / 4) = 2) : Bool) = (decide (8 ≤ p.1) && decide (p.1 < 12)) := by
    intro p _
    rw [← Bool.decide_and, decide_eq_decide]
    omega
  have c2 : ((App.sortByY words).enum.filter
      (fun p => decide (min 3 (p.1 / 4) = 2))).map Prod.snd =
      ((App.sortByY words).drop 8).take 4 := by
    rw [List.filter_congr hc2, henum, enumFrom_filter_band 8 12 (App.sortByY words) 0]
    norm_num
  have hc3 : ∀ p ∈ (App.sortByY words).enum,
      (decide (min 3 (p.1 / 4) = 3) : Bool) = decide (12 ≤ p.1) := by
    intro p _
    rw [decide_eq_decide]
    omega
  have c3 : ((App.sortByY words).enum.filter
      (fun p => decide (min 3 (p.1 / 4) = 3))).map Prod.snd =
      (App.sortByY words).drop 12 := by
    rw [List.filter_congr hc3, henum, enumFrom_filter_ge 12 (App.sortByY words) 0]
  rw [c0, c1, c2, c3]

/-- Witness for the amended claim C6: sixteen candidates on one line all
fall into the first band, so the clusterer redistributes them. -/
theorem claim6_oversized_set_redistributes_witness :
    (App.hasReasonableDistribution (App.bandRows wordsSixteen 4) = false ∧
      16 ≤ wordsSixteen.length) ∧
    App.clusterIntoRows wordsSixteen 4 =
      [(App.sortByY wordsSixteen).take 4,
       ((App.sortByY wordsSixteen).drop 4).take 4,
       ((App.sortByY wordsSixteen).drop 8).take 4,
       (App.sortByY wordsSixteen).drop 12] :=
  ⟨⟨by simp [App.hasReasonableDistribution, App.bandRows, App.sortByY, App.rowIdx,
      App.listMin, App.listMax, wordsSixteen, sampleCand, List.insertionSort,
      List.orderedInsert, List.replicate, List.range, List.range.loop],
    by decide⟩,
    claim6_oversized_set_redistributes wordsSixteen
      (by simp [App.hasReasonableDistribution, App.bandRows, App.sortByY, App.rowIdx,
        App.listMin, App.listMax, wordsSixteen, sampleCand, List.insertionSort,
        List.orderedInsert, List.replicate, List.range, List.range.loop])
      (by decide)⟩

end ConnectionsSort
